import Mathlib

/-!
Verification of the codebase ingestion/caching/ranking core of the
LLM code-assistant extension (src/codebaseHandler.ts, second handler
variant: the `CodebaseHandler` class built on the `files`/`file_chunks`
schema with hashes, token counts and line ranges).

JavaScript strings are modelled as Lean `String` (a structure over
`List Char`); all string operations used by the handler are re-implemented
structurally below so that every definition evaluates inside the kernel.
The tiktoken encoder and the MD5 digest are abstracted as function
parameters (`tk`, `hash`): the handler control flow never inspects a
hash value, and the token counter is an explicitly pluggable strategy
(exact tiktoken or the `ceil(length/4)` fallback).
-/

namespace CodebaseHandler

/-- Whitespace characters recognised by the JavaScript `\s` class (and by
`String.prototype.trim`) that can actually occur in the inputs of the handler:
space, tab, newline, carriage return, vertical tab, form feed.  (The JS
class also matches rare Unicode spaces, which none of the
pattern tables of the handler or the claims exercise.) -/
def wsChar (c : Char) : Bool :=
  c = ' ' || c = '\t' || c = '\n' || c = '\r' || c = '\x0b' || c = '\x0c'

/-- JS `content.split('\n')` on character lists: split at every newline.
Always returns at least one piece; `"".split('\n')` is `[""]`. -/
def splitLinesList : List Char → List (List Char)
  | [] => [[]]
  | c :: cs =>
    if c = '\n' then [] :: splitLinesList cs
    else
      match splitLinesList cs with
      | [] => [[c]]
      | l :: ls => (c :: l) :: ls

/-- JS `content.split('\n')`, producing the list of lines of a string. -/
def splitLines (s : String) : List String :=
  (splitLinesList s.data).map String.mk

/-- JS `array.join('\n')`: concatenate with a newline separator
(`[].join('\n')` is `""`). -/
def joinLines : List String → String
  | [] => ""
  | [l] => l
  | l :: l2 :: ls => l ++ "\n" ++ joinLines (l2 :: ls)

/-- Character-list version of `joinLines`, used to prove the
split/join round trip. -/
def joinLinesList : List (List Char) → List Char
  | [] => []
  | [l] => l
  | l :: l2 :: ls => l ++ '\n' :: joinLinesList (l2 :: ls)

/-- Does the first list occur as a leading segment of the second?
(JS `String.prototype.startsWith` on char lists.) -/
def startsWithList : List Char → List Char → Bool
  | [], _ => true
  | _ :: _, [] => false
  | p :: ps, c :: cs => p = c && startsWithList ps cs

/-- Does the first list occur as a contiguous segment of the second?
(JS `String.prototype.includes` on char lists.) -/
def containsList (pat : List Char) : List Char → Bool
  | [] => pat.isEmpty
  | c :: cs => startsWithList pat (c :: cs) || containsList pat cs

/-- JS `s.includes(pat)`. -/
def containsStr (pat s : String) : Bool := containsList pat.data s.data

/-- JS `s.startsWith(pat)`. -/
def startsWithStr (pat s : String) : Bool := startsWithList pat.data s.data

/-- JS `s.toLowerCase()` (ASCII; the handler only lowercases paths,
extensions and source text). -/
def toLowerStr (s : String) : String := String.mk (s.data.map Char.toLower)

/-- JS `s.trim()`: strip whitespace from both ends. -/
def trimStr (s : String) : String :=
  String.mk (((s.data.dropWhile wsChar).reverse.dropWhile wsChar).reverse)

/-- One produced chunk: `ChunkInfo` from codebaseHandler.ts. -/
structure ChunkInfo where
  content : String
  tokens : Nat
  startLine : Nat
  endLine : Nat
  chunkType : String
deriving DecidableEq

/-- The source function `CodebaseHandler.determineChunkType`: lightweight keyword inspection
tagging a chunk. -/
def determineChunkType (content : String) (extension : String) : String :=
  let lowerContent := toLowerStr content
  if containsStr ("class ") lowerContent || containsStr ("function ") lowerContent ||
      containsStr ("def ") lowerContent then
    "class_function"
  else if containsStr ("import ") lowerContent || containsStr ("#include") lowerContent ||
      containsStr ("require(") lowerContent then
    "imports"
  else if startsWithStr ("#") (trimStr content) || startsWithStr ("//") (trimStr content) ||
      startsWithStr ("/*") (trimStr content) then
    "comments"
  else if extension = ".md" && containsStr ("#") content then
    "heading"
  else
    "general"

/-- The characters of a line after the leading whitespace consumed by a
`^\s*` regex anchor.  All boundary patterns continue with a non-whitespace
character, so the greedy `\s*` position is the only possible match
position. -/
def afterWs (s : String) : List Char := s.data.dropWhile wsChar

/-- Regex `^\s*(kw1|kw2|...)` for literal keyword alternatives. -/
def startsAfterWs (kws : List String) (s : String) : Bool :=
  kws.any fun kw => startsWithList kw.data (afterWs s)

/-- Regex `^\s*\/\*.*\*\//`: after leading whitespace, `/*` and a later `*/`. -/
def blockCommentTest (s : String) : Bool :=
  startsWithList ['/', '*'] (afterWs s) && containsList ['*', '/'] ((afterWs s).drop 2)

/-- Regex `^\s*\/\/.*`. -/
def lineCommentTest (s : String) : Bool :=
  startsWithList ['/', '/'] (afterWs s)

/-- Regex `^\s*""".*"""`: after leading whitespace, `"""` and a later `"""`. -/
def docstringTest (s : String) : Bool :=
  startsWithList ['"', '"', '"'] (afterWs s) &&
    containsList ['"', '"', '"'] ((afterWs s).drop 3)

/-- The `.py` row of `boundaryPatterns` (a matching line is `.some` of the
three regexes). -/
def pyBoundaryTest (s : String) : Bool :=
  startsAfterWs ["def ", "class ", "import ", "from "] s
  || startsWithList ['#'] (afterWs s)
  || docstringTest s

/-- The `.js` row of `boundaryPatterns`. -/
def jsBoundaryTest (s : String) : Bool :=
  startsAfterWs ["function ", "class ", "const ", "let ", "var "] s
  || blockCommentTest s || lineCommentTest s

/-- The `.ts` row of `boundaryPatterns`. -/
def tsBoundaryTest (s : String) : Bool :=
  startsAfterWs ["function ", "class ", "const ", "let ", "var ", "interface ", "type "] s
  || blockCommentTest s || lineCommentTest s

/-- The `.java` row of `boundaryPatterns`. -/
def javaBoundaryTest (s : String) : Bool :=
  startsAfterWs ["public ", "private ", "protected ", "class ", "interface "] s
  || blockCommentTest s || lineCommentTest s

/-- The `.cpp` row of `boundaryPatterns`. -/
def cppBoundaryTest (s : String) : Bool :=
  startsAfterWs ["class ", "struct ", "namespace ", "#include"] s
  || blockCommentTest s || lineCommentTest s

/-- The fallback pattern `[/^\s*$/]` for extensions missing from the
table: a line of nothing but whitespace. -/
def defaultBoundaryTest (s : String) : Bool := s.data.all wsChar

/-- Lookup `boundaryPatterns[extension] || [/^\s*$/]`. -/
def boundaryTestFor (extension : String) : String → Bool :=
  if extension = ".py" then pyBoundaryTest
  else if extension = ".js" then jsBoundaryTest
  else if extension = ".ts" then tsBoundaryTest
  else if extension = ".java" then javaBoundaryTest
  else if extension = ".cpp" then cppBoundaryTest
  else defaultBoundaryTest

/-- Close the in-progress chunk: the `chunks.push({...})` object literal. -/
def mkChunk (extension : String) (cur : List String) (tokens startLine : Nat) : ChunkInfo :=
  { content := joinLines cur
    tokens := tokens
    startLine := startLine
    endLine := startLine + cur.length - 1
    chunkType := determineChunkType (joinLines cur) extension }

/-- The `for` loop of `smartChunkContent`, scanning lines with the
in-progress chunk `cur`, its running token total, and its start line.
`currentTokens > maxTokens * 0.5` on JS floats is exactly
`2 * currentTokens > maxTokens` on integers, and
`currentTokens + lineTokens > maxTokens` is integer arithmetic in JS too
(all counts are small integers, far below the float-precision bound). -/
def chunkLoop (tk : String → Nat) (isB : String → Bool) (extension : String) (maxTokens : Nat) :
    List String → Nat → List String → Nat → Nat → List ChunkInfo
  | [], _, currentChunk, currentTokens, startLine =>
    if currentChunk.length > 0 then
      [mkChunk extension currentChunk currentTokens startLine]
    else []
  | line :: rest, i, currentChunk, currentTokens, startLine =>
    -- the local `lineTokens` of the source is written out as `tk line` below
    if (isB line && decide (2 * currentTokens > maxTokens))
        || decide (currentTokens + tk line > maxTokens) then
      (if currentChunk.length > 0 then
        [mkChunk extension currentChunk currentTokens startLine]
      else [])
        ++ chunkLoop tk isB extension maxTokens rest (i + 1) [line] (tk line) i
    else
      chunkLoop tk isB extension maxTokens rest (i + 1)
        (currentChunk ++ [line]) (currentTokens + tk line) startLine

/-- The source function `CodebaseHandler.smartChunkContent`, parametrised by the token
counter `tk` (tiktoken or the fallback). -/
def smartChunkContent (tk : String → Nat) (content : String) (extension : String)
    (maxTokens : Nat) : List ChunkInfo :=
  chunkLoop tk (boundaryTestFor extension) extension maxTokens (splitLines content) 0 [] 0 0

/-- The `countTokens` fallback strategy `Math.ceil(text.length / 4)`.
JS `length` counts UTF-16 code units, which coincides with the character
count on the ASCII inputs used in the concrete runs below. -/
def fallbackCount (s : String) : Nat := (s.data.length + 3) / 4

/-- The 0-based inclusive `(startLine, endLine)` ranges of a chunk list,
in index order. -/
def chunkRanges (cs : List ChunkInfo) : List (Nat × Nat) :=
  cs.map fun c => (c.startLine, c.endLine)

/-- Predicate `contiguousFrom s rs`: the ranges `rs` start exactly at line `s`, each
range is nonempty (`fst ≤ snd`), and each subsequent range starts exactly
one line after the previous one ends (no gap, no overlap). -/
def contiguousFrom : Nat → List (Nat × Nat) → Bool
  | _, [] => true
  | s, r :: rs => decide (r.1 = s) && decide (s ≤ r.2) && contiguousFrom (r.2 + 1) rs

/-- The line index one past the last range of the chain (`s` itself when
there are no ranges). -/
def chainEnd : Nat → List (Nat × Nat) → Nat
  | s, [] => s
  | _, r :: rs => chainEnd (r.2 + 1) rs

/-- JS `path.basename` with forward-slash separators: the part of the
path after the last `/`. -/
def basenameStr (s : String) : String :=
  String.mk ((s.data.reverse.takeWhile fun c => c != '/').reverse)

/-- Node `path.extname`: the suffix of the basename from its last dot,
empty when the basename has no dot or only a leading dot.  (Degenerate
all-dot basenames are not exercised by the inputs of the handler.) -/
def extnameStr (s : String) : String :=
  let b := (s.data.reverse.takeWhile fun c => c != '/').reverse
  let rext := b.reverse.takeWhile fun c => c != '.'
  if rext.length = b.length ∨ b.length = rext.length + 1 then ("")
  else String.mk ('.' :: rext.reverse)

/-- The `supportedExtensions` allowlist. -/
def supportedExtensions : List String :=
  [".py", ".js", ".ts", ".java", ".cpp", ".c", ".go", ".rs", ".php", ".rb",
   ".swift", ".kt", ".html", ".css", ".sql", ".sh", ".yml", ".yaml",
   ".json", ".xml", ".md", ".txt", ".cfg", ".ini", ".toml", ".jsx", ".tsx"]

/-- The `filePriority` record. -/
def filePriorityTable : List (String × Nat) :=
  [(".py", 10), (".js", 9), (".ts", 9), (".java", 8), (".cpp", 7), (".c", 7),
   (".go", 6), (".rs", 6), (".jsx", 8), (".tsx", 8), (".html", 5), (".css", 4),
   (".sql", 6), (".sh", 5), (".yml", 4), (".yaml", 4), (".json", 3), (".xml", 3),
   (".md", 4), (".txt", 3), (".cfg", 2), (".ini", 2)]

/-- Lookup `this.filePriority[extension] || 1`. -/
def filePriority (extension : String) : Nat :=
  (filePriorityTable.lookup extension).getD 1

/-- The source function `CodebaseHandler.determineFileType`. -/
def determineFileType (extension : String) : String :=
  if [".py", ".js", ".ts", ".java", ".cpp", ".c", ".go", ".rs"].contains extension then
    "code"
  else if [".json", ".xml", ".yml", ".yaml", ".cfg", ".ini"].contains extension then
    "config"
  else if [".md", ".txt"].contains extension then
    "text"
  else
    "other"

/-- Preview logic: substring of the first 500 units, with a three-dot ellipsis appended when the content is longer. -/
def contentPreviewOf (content : String) : String :=
  if content.data.length > 500 then String.mk (content.data.take 500) ++ "..." else content

/-- A row of the `files` table (`created_at` is omitted: it is assigned a
default and never read). -/
structure FileRec where
  id : Nat
  file_path : String
  file_hash : String
  extension : String
  file_type : String
  size : Nat
  lines : Nat
  tokens : Nat
  priority : Nat
  last_modified : Nat
  is_processed : Bool
  content_preview : String
deriving DecidableEq

/-- A row of the `file_chunks` table. -/
structure ChunkRec where
  id : Nat
  file_id : Nat
  chunk_index : Nat
  content : String
  tokens : Nat
  start_line : Nat
  end_line : Nat
  chunk_type : String
  chunk_hash : String
deriving DecidableEq

/-- The persistent SQLite state: the two tables (rows listed in rowid
order) plus their AUTOINCREMENT sequences.  With the `AUTOINCREMENT`
keyword SQLite never reuses a sequence value, even after the row holding
it is deleted. -/
structure Store where
  files : List FileRec
  chunks : List ChunkRec
  nextFileId : Nat
  nextChunkId : Nat
deriving DecidableEq

/-- A freshly initialised database. -/
def emptyStore : Store := { files := [], chunks := [], nextFileId := 1, nextChunkId := 1 }

/-- The source function `CodebaseHandler.processFile` as a state transition on the store,
returning the resolved boolean.  `tk` abstracts `countTokens`, `hash`
abstracts the MD5 hex digest (the control flow never inspects a hash
value), `fileSize` is `fs.statSync(filePath).size`, `maxFileSize` the
`llmCodeAssistant.maxFileSize` setting (default 10485760) and `now` the
`datetime(now)` timestamp.  The `INSERT OR REPLACE` hitting the
`file_path UNIQUE` conflict deletes the conflicting row and inserts a
fresh one whose id is the next AUTOINCREMENT value; `this.lastID`
reports that fresh id, and the subsequent
`DELETE FROM file_chunks WHERE file_id = ?` runs against it. -/
def processFile (tk : String → Nat) (hash : String → String) (filePath content : String)
    (fileSize maxFileSize now : Nat) (s : Store) : Bool × Store :=
  let extension := toLowerStr (extnameStr filePath)
  if (supportedExtensions.contains extension) = false then (false, s)
  else if fileSize > maxFileSize then (false, s)
  else if tk content > 100000 then (false, s)
  else
    let fileId := s.nextFileId
    let newFile : FileRec :=
      { id := fileId
        file_path := filePath
        file_hash := hash content
        extension := extension
        file_type := determineFileType extension
        size := fileSize
        lines := (splitLines content).length
        tokens := tk content
        priority := filePriority extension
        last_modified := now
        is_processed := true
        content_preview := contentPreviewOf content }
    let files1 := (s.files.filter fun f => f.file_path != filePath) ++ [newFile]
    let chunks1 := s.chunks.filter fun c => c.file_id != fileId
    let cs := smartChunkContent tk content extension 2000
    let newChunks := ((List.range cs.length).zip cs).map fun p =>
      ({ id := s.nextChunkId + p.1
         file_id := fileId
         chunk_index := p.1
         content := p.2.content
         tokens := p.2.tokens
         start_line := p.2.startLine
         end_line := p.2.endLine
         chunk_type := p.2.chunkType
         chunk_hash := hash p.2.content } : ChunkRec)
    (true, { files := files1
             chunks := chunks1 ++ newChunks
             nextFileId := fileId + 1
             nextChunkId := s.nextChunkId + cs.length })

/-- The aggregate shape returned by `getCodebaseStats` (`fileTypes` and
`extensions` as association lists in first-appearance order; the SQLite
`GROUP BY` output order is unspecified and never relied upon). -/
structure CodebaseStats where
  totalFiles : Nat
  processedFiles : Nat
  totalTokens : Nat
  totalLines : Nat
  fileTypes : List (String × Nat)
  extensions : List (String × Nat)
deriving DecidableEq

/-- First-occurrence deduplication (JS `Set` membership in insertion
order). -/
def dedupKeepFirst (seen : List String) : List String → List String
  | [] => []
  | x :: xs =>
    if seen.contains x then dedupKeepFirst seen xs
    else x :: dedupKeepFirst (x :: seen) xs

/-- Aggregation `SELECT v, COUNT(*) ... GROUP BY v` over the values of one column. -/
def groupCounts (l : List String) : List (String × Nat) :=
  (dedupKeepFirst [] l).map fun v => (v, (l.filter fun x => x == v).length)

/-- The source function `CodebaseHandler.getCodebaseStats`: all aggregates range over rows
with `is_processed = 1`, and both `totalFiles` and `processedFiles` are
filled from the same `COUNT(*)` value (`row.count || 0`). -/
def getCodebaseStats (s : Store) : CodebaseStats :=
  let processed := s.files.filter fun f => f.is_processed
  { totalFiles := processed.length
    processedFiles := processed.length
    totalTokens := (processed.map fun f => f.tokens).sum
    totalLines := (processed.map fun f => f.lines).sum
    fileTypes := groupCounts (processed.map fun f => f.file_type)
    extensions := groupCounts (processed.map fun f => f.extension) }

/-- The columns selected by the query of `getRelevantFiles` over `files`. -/
structure FileRow where
  file_path : String
  extension : String
  tokens : Nat
  priority : Nat
  file_type : String
  content_preview : String
  file_hash : String
deriving DecidableEq

/-- The `FileInfo` objects assembled by `getRelevantFiles` (`size` and
`lines` are hard-coded to 0 in the source). -/
structure FileInfo where
  filePath : String
  extension : String
  fileType : String
  size : Nat
  lines : Nat
  tokens : Nat
  priority : Nat
  hash : String
  contentPreview : String
deriving DecidableEq

/-- The `selectedFiles.push({...})` object built from a row. -/
def toFileInfo (row : FileRow) : FileInfo :=
  { filePath := row.file_path
    extension := row.extension
    fileType := row.file_type
    size := 0
    lines := 0
    tokens := row.tokens
    priority := row.priority
    hash := row.file_hash
    contentPreview := row.content_preview }

/-- JS `split(/\s+/)`: split on maximal whitespace runs; leading and
trailing runs contribute empty pieces, and splitting the empty string
gives `[""]`, exactly as in JS. -/
def jsWsSplitAux : List Char → List Char → Bool → List String
  | [], cur, _ => [String.mk cur.reverse]
  | c :: cs, cur, inRun =>
    if wsChar c then
      if inRun then jsWsSplitAux cs [] true
      else String.mk cur.reverse :: jsWsSplitAux cs [] true
    else jsWsSplitAux cs (c :: cur) false

def jsSplitWs (s : String) : List String := jsWsSplitAux s.data [] false

/-- The set `new Set(query.toLowerCase().split(/\s+/))`, listed in insertion
order.  The score below sums over the set, so the iteration order is
immaterial; only the deduplication matters. -/
def keywordsOf (query : String) : List String :=
  dedupKeepFirst [] (jsSplitWs (toLowerStr query))

/-- The relevance accumulation of `getRelevantFiles`: +10 per keyword in
the lowercased basename, +5 per keyword in the extension, +3 per keyword
in the file type, +7 per keyword in the lowercased content preview.  The
source computes this value into a local that is never read again; see
`getRelevantFiles`. -/
def relevanceScore (keywords : List String) (row : FileRow) : Nat :=
  keywords.foldl
    (fun acc kw =>
      let a1 := if containsStr kw (toLowerStr (basenameStr row.file_path)) then acc + 10
        else acc
      let a2 := if containsStr kw row.extension then a1 + 5 else a1
      let a3 := if containsStr kw row.file_type then a2 + 3 else a2
      if containsStr kw (toLowerStr row.content_preview) then a3 + 7 else a3)
    0

/-- The greedy budget scan of `getRelevantFiles`: rows are taken in query
order while they fit; the first row that would overflow the budget stops
the whole scan (`break`).  The relevance score computed per row in the
source is dropped here exactly as the source drops it. -/
def selectFiles (keywords : List String) (maxTokens : Nat) :
    List FileRow → Nat → List FileInfo
  | [], _ => []
  | row :: rest, currentTokens =>
    if currentTokens + row.tokens > maxTokens then []
    else
      toFileInfo row :: selectFiles keywords maxTokens rest (currentTokens + row.tokens)

/-- Stable insertion for the final
`selectedFiles.sort((a, b) => b.priority - a.priority)` (JS sort is
stable, so ties keep the greedy inclusion order). -/
def insertByPriority (x : FileInfo) : List FileInfo → List FileInfo
  | [] => [x]
  | y :: ys => if y.priority ≤ x.priority then x :: y :: ys else y :: insertByPriority x ys

def sortByPriority : List FileInfo → List FileInfo
  | [] => []
  | x :: xs => insertByPriority x (sortByPriority xs)

/-- The source function `CodebaseHandler.getRelevantFiles`, given the rows returned by
`SELECT ... WHERE is_processed = 1 ORDER BY priority DESC, tokens ASC`:
greedy budget-bounded inclusion, then the priority sort, then
`.slice(0, 20)`. -/
def getRelevantFiles (query : String) (maxTokens : Nat) (rows : List FileRow) :
    List FileInfo :=
  (sortByPriority (selectFiles (keywordsOf query) maxTokens rows 0)).take 20

/-- Projection of a stored file row onto the queried columns. -/
def rowOfRec (f : FileRec) : FileRow :=
  { file_path := f.file_path
    extension := f.extension
    tokens := f.tokens
    priority := f.priority
    file_type := f.file_type
    content_preview := f.content_preview
    file_hash := f.file_hash }

/-- Stable insertion modelling `ORDER BY priority DESC, tokens ASC`
(SQLite leaves the relative order of fully tied rows unspecified; the
model keeps them stable, and the concrete runs below have no full
ties). -/
def insertRowOrder (x : FileRow) : List FileRow → List FileRow
  | [] => [x]
  | y :: ys =>
    if x.priority > y.priority ∨ (x.priority = y.priority ∧ x.tokens ≤ y.tokens) then
      x :: y :: ys
    else y :: insertRowOrder x ys

def orderRows : List FileRow → List FileRow
  | [] => []
  | x :: xs => insertRowOrder x (orderRows xs)

/-- Function `getRelevantFiles` end to end from a store state. -/
def getRelevantFilesStore (query : String) (maxTokens : Nat) (s : Store) : List FileInfo :=
  getRelevantFiles query maxTokens
    (orderRows ((s.files.filter fun f => f.is_processed).map rowOfRec))

/-- Total tokens of a returned selection. -/
def sumTokens (l : List FileInfo) : Nat := (l.map fun f => f.tokens).sum

/-- An injective stand-in for the MD5 hex digest, used in the concrete
runs below (the handler control flow never inspects a hash value, so
any function may instantiate the abstracted digest). -/
def identHash : String → String := fun s => s

/-- First version of the content of the example file. -/
def contentV1 : String := "import os\n\nx = 1"

/-- Second, changed version of the content of the example file. -/
def contentV2 : String := "y = 2"

/-- The store after processing `/w/app.py` holding `contentV1`. -/
def storeAfterV1 : Store :=
  (processFile fallbackCount identHash ("/w/app.py") contentV1 16 10485760 0 emptyStore).2

/-- Then the store after reprocessing the same path with changed content. -/
def storeAfterV2 : Store :=
  (processFile fallbackCount identHash ("/w/app.py") contentV2 5 10485760 1 storeAfterV1).2

/-- Or the store after reprocessing the same path with identical content. -/
def storeAfterV1Again : Store :=
  (processFile fallbackCount identHash ("/w/app.py") contentV1 16 10485760 1 storeAfterV1).2

/-- The processed file rows used by the C6 run: a high-priority Python
file that does not match the query, … -/
def recUtil : FileRec :=
  { id := 1, file_path := "/w/util.py", file_hash := "h1", extension := ".py",
    file_type := "code", size := 5, lines := 1, tokens := 10, priority := 10,
    last_modified := 0, is_processed := true, content_preview := "x = 1" }

/-- And a low-priority markdown file whose name matches the query. -/
def recFib : FileRec :=
  { id := 2, file_path := "/w/fib.md", file_hash := "h2", extension := ".md",
    file_type := "text", size := 5, lines := 1, tokens := 10, priority := 4,
    last_modified := 0, is_processed := true, content_preview := "notes" }

def demoStore : Store :=
  { files := [recFib, recUtil], chunks := [], nextFileId := 3, nextChunkId := 1 }

/-- Splitting always yields at least one piece. -/
theorem splitLinesList_ne_nil (l : List Char) : splitLinesList l ≠ [] := by
  cases l with
  | nil => simp [splitLinesList]
  | cons c cs =>
    simp only [splitLinesList]
    split
    · simp
    · cases h : splitLinesList cs <;> simp

/-- Character-level split/join round trip. -/
theorem joinLinesList_splitLinesList (l : List Char) :
    joinLinesList (splitLinesList l) = l := by
  induction l with
  | nil => rfl
  | cons c cs ih =>
    simp only [splitLinesList]
    split
    · rename_i hc
      cases h : splitLinesList cs with
      | nil => exact absurd h (splitLinesList_ne_nil cs)
      | cons r rs =>
        rw [h] at ih
        simp only [joinLinesList, List.nil_append, hc]
        rw [ih]
    · cases h : splitLinesList cs with
      | nil => exact absurd h (splitLinesList_ne_nil cs)
      | cons r rs =>
        rw [h] at ih
        cases rs with
        | nil =>
          simp only [joinLinesList] at ih ⊢
          rw [ih]
        | cons r2 rs2 =>
          simp only [joinLinesList] at ih ⊢
          rw [List.cons_append, ih]

/-- Function `joinLines` agrees with the character-level join. -/
theorem joinLines_map_mk (L : List (List Char)) :
    joinLines (L.map String.mk) = String.mk (joinLinesList L) := by
  match L with
  | [] => rfl
  | [l] => rfl
  | l :: l2 :: ls =>
    have ih := joinLines_map_mk (l2 :: ls)
    show String.mk l ++ ("\n") ++ joinLines ((l2 :: ls).map String.mk)
      = String.mk (l ++ '\n' :: joinLinesList (l2 :: ls))
    rw [ih]
    show String.mk ((l ++ ['\n']) ++ joinLinesList (l2 :: ls))
      = String.mk (l ++ '\n' :: joinLinesList (l2 :: ls))
    rw [List.append_assoc]
    rfl

/-- Splitting a string into lines and joining them back is the identity. -/
theorem joinLines_splitLines (s : String) : joinLines (splitLines s) = s := by
  cases s with
  | mk data =>
    show joinLines ((splitLinesList data).map String.mk) = String.mk data
    rw [joinLines_map_mk, joinLinesList_splitLinesList]

theorem joinLines_cons (x : String) (ys : List String) (h : ys ≠ []) :
    joinLines (x :: ys) = x ++ ("\n") ++ joinLines ys := by
  cases ys with
  | nil => exact absurd rfl h
  | cons y ys2 => rfl

theorem joinLines_append (A B : List String) (hA : A ≠ []) (hB : B ≠ []) :
    joinLines (A ++ B) = joinLines A ++ ("\n") ++ joinLines B := by
  induction A with
  | nil => exact absurd rfl hA
  | cons a A2 ih =>
    cases A2 with
    | nil => simpa using joinLines_cons a B hB
    | cons a2 A3 =>
      have h2 : (a2 :: A3 : List String) ≠ [] := by simp
      have hAB : ((a2 :: A3) ++ B : List String) ≠ [] := by simp
      calc joinLines ((a :: a2 :: A3) ++ B)
          = a ++ ("\n") ++ joinLines ((a2 :: A3) ++ B) := by
            rw [List.cons_append]
            exact joinLines_cons a ((a2 :: A3) ++ B) hAB
        _ = a ++ ("\n") ++ (joinLines (a2 :: A3) ++ ("\n") ++ joinLines B) := by
            rw [ih h2]
        _ = (a ++ ("\n") ++ joinLines (a2 :: A3)) ++ ("\n") ++ joinLines B := by
            simp [String.append_assoc]
        _ = joinLines (a :: a2 :: A3) ++ ("\n") ++ joinLines B := by
            rw [joinLines_cons a (a2 :: A3) h2]

/-- Once the in-progress chunk is nonempty, the loop emits at least one
chunk. -/
theorem chunkLoop_ne_nil (tk : String → Nat) (isB : String → Bool) (ext : String)
    (maxT : Nat) : ∀ (ls : List String) (i : Nat) (cur : List String) (ct sl : Nat),
    cur ≠ [] → chunkLoop tk isB ext maxT ls i cur ct sl ≠ [] := by
  intro ls
  induction ls with
  | nil =>
    intro i cur ct sl h
    simp only [chunkLoop]
    rw [if_pos (List.length_pos.2 h)]
    simp
  | cons line rest ih =>
    intro i cur ct sl h
    simp only [chunkLoop]
    split
    · intro hcontra
      exact ih (i + 1) [line] (tk line) i (by simp) (List.append_eq_nil.1 hcontra).2
    · exact ih (i + 1) (cur ++ [line]) (ct + tk line) sl (by simp)

/-- The chunk contents, joined with newlines, are exactly the pending
lines joined with newlines. -/
theorem chunkLoop_join (tk : String → Nat) (isB : String → Bool) (ext : String)
    (maxT : Nat) : ∀ (ls : List String) (i : Nat) (cur : List String) (ct sl : Nat),
    joinLines ((chunkLoop tk isB ext maxT ls i cur ct sl).map ChunkInfo.content)
      = joinLines (cur ++ ls) := by
  intro ls
  induction ls with
  | nil =>
    intro i cur ct sl
    cases cur with
    | nil => rfl
    | cons c cs =>
      simp only [chunkLoop]
      rw [if_pos (by simp)]
      simp only [List.map_cons, List.map_nil, mkChunk, List.append_nil]
      rfl
  | cons line rest ih =>
    intro i cur ct sl
    simp only [chunkLoop]
    split
    · cases cur with
      | nil => simpa using ih (i + 1) [line] (tk line) i
      | cons c cs =>
        rw [if_pos (by simp)]
        have hne := chunkLoop_ne_nil tk isB ext maxT rest (i + 1) [line] (tk line) i (by simp)
        have hmapne :
            (chunkLoop tk isB ext maxT rest (i + 1) [line] (tk line) i).map
              ChunkInfo.content ≠ [] := by
          simpa using hne
        rw [List.singleton_append, List.map_cons,
          joinLines_cons _ _ hmapne, ih (i + 1) [line] (tk line) i]
        simp only [mkChunk]
        rw [← joinLines_append (c :: cs) ([line] ++ rest) (by simp) (by simp)]
        simp
    · rw [ih (i + 1) (cur ++ [line]) (ct + tk line) sl]
      simp

/-- C1: for every file content string, extension, token counter and token
bound, concatenating the chunks produced by `smartChunkContent` in index
order, joined with the line separator, reproduces the original content
exactly. -/
theorem smartChunkContent_roundTrip (tk : String → Nat) (content extension : String)
    (maxTokens : Nat) :
    joinLines ((smartChunkContent tk content extension maxTokens).map ChunkInfo.content)
      = content := by
  unfold smartChunkContent
  rw [chunkLoop_join]
  simpa using joinLines_splitLines content

theorem splitLines_ne_nil (s : String) : splitLines s ≠ [] := by
  unfold splitLines
  intro h
  exact splitLinesList_ne_nil s.data (List.map_eq_nil_iff.1 h)

/-- Loop invariant for the line ranges: scanning line `i` with an
in-progress chunk of `cur.length` lines starting at `sl` (so
`i = sl + cur.length`), the emitted ranges chain contiguously from `sl`
and end one past the last input line. -/
theorem chunkLoop_ranges (tk : String → Nat) (isB : String → Bool) (ext : String)
    (maxT : Nat) : ∀ (ls : List String) (i : Nat) (cur : List String) (ct sl : Nat),
    cur ≠ [] → i = sl + cur.length →
    contiguousFrom sl (chunkRanges (chunkLoop tk isB ext maxT ls i cur ct sl)) = true
    ∧ chainEnd sl (chunkRanges (chunkLoop tk isB ext maxT ls i cur ct sl))
        = i + ls.length := by
  intro ls
  induction ls with
  | nil =>
    intro i cur ct sl h hi
    have hl : 0 < cur.length := List.length_pos.2 h
    simp only [chunkLoop]
    rw [if_pos hl]
    simp only [chunkRanges, List.map_cons, List.map_nil, mkChunk, contiguousFrom, chainEnd,
      List.length_nil, Bool.and_eq_true, decide_eq_true_eq]
    constructor
    · simp only [true_and, and_true, eq_self_iff_true]
      omega
    · omega
  | cons line rest ih =>
    intro i cur ct sl h hi
    have hl : 0 < cur.length := List.length_pos.2 h
    simp only [chunkLoop]
    split
    · have ih2 := ih (i + 1) [line] (tk line) i (by simp) (by simp)
      simp only [chunkRanges, List.map_append, List.map_cons, List.map_nil, mkChunk,
        List.singleton_append, contiguousFrom, chainEnd, Bool.and_eq_true,
        decide_eq_true_eq, true_and, and_true, eq_self_iff_true] at ih2 ⊢
      have he : sl + cur.length - 1 + 1 = i := by omega
      rw [he]
      refine ⟨⟨?_, ih2.1⟩, ?_⟩
      · omega
      · have hlen : i + 1 + rest.length = i + (line :: rest).length := by
          simp only [List.length_cons]
          omega
        exact ih2.2.trans hlen
    · have ih2 := ih (i + 1) (cur ++ [line]) (ct + tk line) sl (by simp)
        (by simp only [List.length_append, List.length_singleton]; omega)
      constructor
      · exact ih2.1
      · rw [ih2.2]
        simp only [List.length_cons]
        omega

/-- A contiguous chain of ranges covers every line index from its start up
to its end. -/
theorem contiguous_cover : ∀ (rs : List (Nat × Nat)) (s j : Nat),
    contiguousFrom s rs = true → s ≤ j → j < chainEnd s rs →
    ∃ r ∈ rs, r.1 ≤ j ∧ j ≤ r.2 := by
  intro rs
  induction rs with
  | nil =>
    intro s j _ h1 h2
    simp only [chainEnd] at h2
    omega
  | cons r rest ih =>
    intro s j hc h1 h2
    simp only [contiguousFrom, Bool.and_eq_true, decide_eq_true_eq] at hc
    obtain ⟨⟨hr1, hr2⟩, hrest⟩ := hc
    simp only [chainEnd] at h2
    by_cases hj : j ≤ r.2
    · exact ⟨r, List.mem_cons_self r rest, by omega, hj⟩
    · obtain ⟨r2, hm, ha, hb⟩ := ih (r.2 + 1) j hrest (by omega) h2
      exact ⟨r2, List.mem_cons_of_mem r hm, ha, hb⟩

/-- C4: for every content, extension, token counter and token bound, the
chunks produced by `smartChunkContent` carry 0-based inclusive line ranges
that start at line 0, are contiguous and non-overlapping in index order
(each start is the previous end plus one), end at the last line, and
jointly cover every line of the file. -/
theorem smartChunkContent_contiguous (tk : String → Nat) (content extension : String)
    (maxTokens : Nat) :
    contiguousFrom 0 (chunkRanges (smartChunkContent tk content extension maxTokens)) = true
    ∧ chainEnd 0 (chunkRanges (smartChunkContent tk content extension maxTokens))
        = (splitLines content).length
    ∧ ∀ j, j < (splitLines content).length →
        ∃ c ∈ smartChunkContent tk content extension maxTokens,
          c.startLine ≤ j ∧ j ≤ c.endLine := by
  have hmain :
      contiguousFrom 0 (chunkRanges (smartChunkContent tk content extension maxTokens)) = true
      ∧ chainEnd 0 (chunkRanges (smartChunkContent tk content extension maxTokens))
          = (splitLines content).length := by
    unfold smartChunkContent
    cases hs : splitLines content with
    | nil => exact absurd hs (splitLines_ne_nil content)
    | cons l rest =>
      simp only [chunkLoop]
      split
      · rw [if_neg (by simp)]
        rw [List.nil_append]
        have h := chunkLoop_ranges tk (boundaryTestFor extension) extension maxTokens
          rest 1 [l] (tk l) 0 (by simp) (by simp)
        exact ⟨h.1, by rw [h.2]; simp only [List.length_cons]; omega⟩
      · rw [List.nil_append]
        have h := chunkLoop_ranges tk (boundaryTestFor extension) extension maxTokens
          rest 1 [l] (0 + tk l) 0 (by simp) (by simp)
        exact ⟨h.1, by rw [h.2]; simp only [List.length_cons]; omega⟩
  refine ⟨hmain.1, hmain.2, ?_⟩
  intro j hj
  have hcov := contiguous_cover
    (chunkRanges (smartChunkContent tk content extension maxTokens)) 0 j hmain.1
    (Nat.zero_le j) (by rw [hmain.2]; exact hj)
  obtain ⟨r, hm, ha, hb⟩ := hcov
  obtain ⟨c, hc, hr⟩ := List.mem_map.1 hm
  refine ⟨c, hc, ?_, ?_⟩
  · rw [← hr] at ha
    exact ha
  · rw [← hr] at hb
    exact hb

/-- C4 witness: the contiguity theorem applied to the two-line file
`"a\nb"`, covering its line 1. -/
theorem smartChunkContent_contiguous_witness :
    contiguousFrom 0 (chunkRanges (smartChunkContent fallbackCount ("a\nb") (".txt") 2000))
      = true
    ∧ chainEnd 0 (chunkRanges (smartChunkContent fallbackCount ("a\nb") (".txt") 2000)) = 2
    ∧ (1 : Nat) < (splitLines ("a\nb")).length
    ∧ ∃ c ∈ smartChunkContent fallbackCount ("a\nb") (".txt") 2000,
        c.startLine ≤ 1 ∧ 1 ≤ c.endLine := by
  have h := smartChunkContent_contiguous fallbackCount ("a\nb") (".txt") 2000
  exact ⟨h.1, h.2.1.trans (by decide), by decide, h.2.2 1 (by decide)⟩

theorem splitLinesList_single (l : List Char) (h : ('\n') ∉ l) : splitLinesList l = [l] := by
  induction l with
  | nil => rfl
  | cons c cs ih =>
    have hcne : ¬ (c = '\n') := fun hc => h (by rw [← hc]; exact List.mem_cons_self c cs)
    simp only [splitLinesList]
    rw [if_neg hcne]
    rw [ih fun hm => h (List.mem_cons_of_mem c hm)]

theorem splitLines_single (s : String) (h : ('\n') ∉ s.data) : splitLines s = [s] := by
  cases s with
  | mk d =>
    show (splitLinesList d).map String.mk = [String.mk d]
    rw [splitLinesList_single d h]
    rfl

/-- C9: a single-line content (no newline) whose token count alone exceeds
`maxTokens` still yields exactly one chunk holding the whole line — the
line is neither split nor dropped. -/
theorem smartChunkContent_singleLongLine (tk : String → Nat) (content extension : String)
    (maxTokens : Nat) (hnl : ('\n') ∉ content.data) (hbig : maxTokens < tk content) :
    smartChunkContent tk content extension maxTokens =
      [{ content := content
         tokens := tk content
         startLine := 0
         endLine := 0
         chunkType := determineChunkType content extension }] := by
  unfold smartChunkContent
  rw [splitLines_single content hnl]
  simp only [chunkLoop]
  rw [if_pos (show (boundaryTestFor extension content && decide (2 * 0 > maxTokens)
      || decide (0 + tk content > maxTokens)) = true from by
    simp only [Bool.or_eq_true, decide_eq_true_eq]
    right
    omega)]
  rw [if_neg (by simp), List.nil_append, if_pos (by simp)]
  simp only [mkChunk, List.length_cons, List.length_nil, List.cons.injEq,
    ChunkInfo.mk.injEq]
  exact ⟨⟨rfl, trivial, trivial, trivial, rfl⟩, trivial⟩

/-- C9 witness: the eight-character line `"aaaaaaaa"` counts 2 fallback
tokens, exceeding a bound of 1, and still forms one whole chunk. -/
theorem smartChunkContent_singleLongLine_witness :
    (('\n') ∉ ("aaaaaaaa").data) ∧ 1 < fallbackCount ("aaaaaaaa")
    ∧ smartChunkContent fallbackCount ("aaaaaaaa") (".txt") 1 =
      [{ content := "aaaaaaaa", tokens := 2, startLine := 0, endLine := 0,
         chunkType := "general" }] := by
  refine ⟨by decide, by decide, ?_⟩
  have h := smartChunkContent_singleLongLine fallbackCount ("aaaaaaaa") (".txt") 1
    (by decide) (by decide)
  exact h.trans (by decide)

/-- C8 counterexample: chunking the empty content string does not yield
zero chunks (refuting the claim at extension `.txt`, `max_tokens = 2000`). -/
theorem smartChunkContent_empty_not_nil :
    smartChunkContent fallbackCount ("") (".txt") 2000 ≠ [] := by decide

/-- C8 amended: chunking the empty content string (any extension, any
token counter, any `maxTokens`) yields exactly one chunk whose content is
the empty string, covering line 0 (JS `"".split('\n')` is `[""]`, and the
final flush always emits the pending single empty line). -/
theorem smartChunkContent_empty_one_chunk (tk : String → Nat) (extension : String)
    (maxTokens : Nat) :
    smartChunkContent tk ("") extension maxTokens =
      [{ content := ""
         tokens := tk ("")
         startLine := 0
         endLine := 0
         chunkType := determineChunkType ("") extension }] := by
  unfold smartChunkContent
  rw [show splitLines ("") = [("")] from by decide]
  simp only [chunkLoop]
  split
  · rw [if_neg (by simp), List.nil_append, if_pos (by simp)]
    simp only [mkChunk, List.length_cons, List.length_nil, List.cons.injEq,
      ChunkInfo.mk.injEq]
    exact ⟨⟨rfl, trivial, trivial, trivial, rfl⟩, trivial⟩
  · rw [if_pos (by simp)]
    simp only [List.nil_append, mkChunk, List.length_cons, List.length_nil, Nat.zero_add,
      List.cons.injEq, ChunkInfo.mk.injEq]
    exact ⟨⟨rfl, trivial, trivial, trivial, rfl⟩, trivial⟩

/-- C7 counterexample: on the example Python content, with `max_tokens`
large enough to hold the whole file in one chunk (2000 ≥ the 5 fallback
tokens), the single produced chunk has `end_line = 2`, not `1`: the
content splits into three lines (the trailing newline yields a final
empty line). -/
theorem smartChunkContent_pyExample_not_endLine_one :
    ((smartChunkContent fallbackCount ("def f():\n    return 1\n") (".py") 2000).map
      fun c => (c.startLine, c.endLine)) ≠ [(0, 1)] := by decide

/-- C7 amended: chunking `"def f():\n    return 1\n"` with extension
`.py` and `max_tokens` large enough to hold all three lines in one chunk
yields exactly one chunk tagged `class_function` (the tag the code uses for
declaration chunks), with `start_line = 0` and `end_line = 2`. -/
theorem smartChunkContent_pyExample (tk : String → Nat) (maxTokens : Nat)
    (h : tk ("def f():") + tk ("    return 1") + tk ("") ≤ maxTokens) :
    smartChunkContent tk ("def f():\n    return 1\n") (".py") maxTokens =
      [{ content := "def f():\n    return 1\n"
         tokens := tk ("def f():") + tk ("    return 1") + tk ("")
         startLine := 0
         endLine := 2
         chunkType := "class_function" }] := by
  have hc1 : ¬ ((pyBoundaryTest ("def f():") && decide (2 * 0 > maxTokens)
      || decide (0 + tk ("def f():") > maxTokens)) = true) := by
    simp only [Bool.or_eq_true, Bool.and_eq_true, decide_eq_true_eq]
    push_neg
    exact ⟨fun _ => by omega, by omega⟩
  have hc2 : ¬ ((pyBoundaryTest ("    return 1")
        && decide (2 * (0 + tk ("def f():")) > maxTokens)
      || decide (0 + tk ("def f():") + tk ("    return 1") > maxTokens)) = true) := by
    simp only [Bool.or_eq_true, Bool.and_eq_true, decide_eq_true_eq]
    push_neg
    exact ⟨fun hpb => absurd hpb (by decide), by omega⟩
  have hc3 : ¬ ((pyBoundaryTest ("")
        && decide (2 * (0 + tk ("def f():") + tk ("    return 1")) > maxTokens)
      || decide (0 + tk ("def f():") + tk ("    return 1") + tk ("") > maxTokens)) = true) := by
    simp only [Bool.or_eq_true, Bool.and_eq_true, decide_eq_true_eq]
    push_neg
    exact ⟨fun hpb => absurd hpb (by decide), by omega⟩
  unfold smartChunkContent
  rw [show splitLines ("def f():\n    return 1\n")
      = [("def f():"), ("    return 1"), ("")] from by decide]
  rw [show boundaryTestFor (".py") = pyBoundaryTest from rfl]
  simp only [chunkLoop]
  rw [if_neg hc1]
  rw [if_neg hc2]
  rw [if_neg hc3]
  rw [if_pos (by simp)]
  simp only [List.nil_append, List.singleton_append, mkChunk, List.length_cons,
    List.length_nil, Nat.zero_add, List.cons.injEq, ChunkInfo.mk.injEq]
  refine ⟨⟨?_, ?_, ?_, ?_, ?_⟩, trivial⟩
  · decide
  · trivial
  · trivial
  · decide
  · decide

/-- C7 amended witness: the fallback counter gives the three lines
2 + 3 + 0 = 5 tokens, within the default bound 2000. -/
theorem smartChunkContent_pyExample_witness :
    fallbackCount ("def f():") + fallbackCount ("    return 1") + fallbackCount ("") ≤ 2000
    ∧ smartChunkContent fallbackCount ("def f():\n    return 1\n") (".py") 2000 =
      [{ content := "def f():\n    return 1\n", tokens := 5, startLine := 0, endLine := 2,
         chunkType := "class_function" }] := by
  refine ⟨by decide, ?_⟩
  have h := smartChunkContent_pyExample fallbackCount 2000 (by decide)
  exact h.trans (by decide)

/-- C2 (code-bug evidence): after reprocessing `/w/app.py` with changed
content (the stored and new hashes differ), the `files` table holds only
the fresh row (id 2), but the `file_chunks` table still holds the
chunk row of the previous version (`file_id = 1`) next to the new one
(`file_id = 2`): the `DELETE FROM file_chunks WHERE file_id = ?` ran
against the fresh AUTOINCREMENT id produced by `INSERT OR REPLACE`, so
it removed nothing and the old chunks survive as orphans. -/
theorem processFile_leaves_stale_chunks :
    identHash contentV1 ≠ identHash contentV2
    ∧ storeAfterV1.files.map FileRec.file_hash = [identHash contentV1]
    ∧ storeAfterV2.files.map FileRec.id = [2]
    ∧ storeAfterV2.chunks.map ChunkRec.file_id = [1, 2] := by decide

/-- C3 (code-bug evidence): reprocessing `/w/app.py` with identical
content (identical hash — `processFile` never compares hashes at all) is
not a no-op: the file row is replaced by one with a fresh id, and the
chunk row count grows from 1 to 2 (the old chunk row is orphaned and a
fresh copy is inserted under the new id). -/
theorem processFile_unchanged_not_noop :
    identHash contentV1 = identHash contentV1
    ∧ storeAfterV1.chunks.length = 1
    ∧ storeAfterV1Again.chunks.length = 2
    ∧ storeAfterV1Again.files ≠ storeAfterV1.files := by decide

/-- C10: `getCodebaseStats` fills `totalFiles` and `processedFiles` from
the same processed-row count, so the two fields always agree. -/
theorem getCodebaseStats_totalFiles_eq_processedFiles (s : Store) :
    (getCodebaseStats s).totalFiles = (getCodebaseStats s).processedFiles := rfl

/-- The greedy scan never pushes the running total past the budget. -/
theorem selectFiles_sum (keywords : List String) (maxTokens : Nat) :
    ∀ (rows : List FileRow) (ct : Nat), ct ≤ maxTokens →
    ct + sumTokens (selectFiles keywords maxTokens rows ct) ≤ maxTokens := by
  intro rows
  induction rows with
  | nil =>
    intro ct h
    simpa [selectFiles, sumTokens] using h
  | cons row rest ih =>
    intro ct h
    simp only [selectFiles]
    split
    · simpa [sumTokens] using h
    · rename_i hno
      have hle : ct + row.tokens ≤ maxTokens := by omega
      have hrec := ih (ct + row.tokens) hle
      simp only [sumTokens, toFileInfo, List.map_cons, List.sum_cons] at hrec ⊢
      omega

theorem sumTokens_insertByPriority (x : FileInfo) (l : List FileInfo) :
    sumTokens (insertByPriority x l) = x.tokens + sumTokens l := by
  induction l with
  | nil => rfl
  | cons y ys ih =>
    simp only [insertByPriority]
    split
    · rfl
    · simp only [sumTokens, List.map_cons, List.sum_cons] at ih ⊢
      omega

/-- The stable priority sort permutes the selection, so its token total
is unchanged. -/
theorem sumTokens_sortByPriority (l : List FileInfo) :
    sumTokens (sortByPriority l) = sumTokens l := by
  induction l with
  | nil => rfl
  | cons x xs ih =>
    simp only [sortByPriority]
    rw [sumTokens_insertByPriority, ih]
    simp [sumTokens]

theorem sumTokens_take_le (l : List FileInfo) (n : Nat) :
    sumTokens (l.take n) ≤ sumTokens l := by
  conv_rhs => rw [← List.take_append_drop n l]
  simp only [sumTokens, List.map_append, List.sum_append]
  omega

/-- C5: for every query, token budget and row set, `getRelevantFiles`
returns a selection whose summed token counts never exceed the budget
and which has at most 20 entries; applied to a store with no processed
files it returns the empty selection. -/
theorem getRelevantFiles_budget (query : String) (maxTokens : Nat) (rows : List FileRow) :
    sumTokens (getRelevantFiles query maxTokens rows) ≤ maxTokens
    ∧ (getRelevantFiles query maxTokens rows).length ≤ 20
    ∧ getRelevantFilesStore query maxTokens emptyStore = [] := by
  refine ⟨?_, ?_, rfl⟩
  · have h1 := selectFiles_sum (keywordsOf query) maxTokens rows 0 (Nat.zero_le _)
    have h2 := sumTokens_take_le
      (sortByPriority (selectFiles (keywordsOf query) maxTokens rows 0)) 20
    have h3 := sumTokens_sortByPriority (selectFiles (keywordsOf query) maxTokens rows 0)
    unfold getRelevantFiles
    omega
  · unfold getRelevantFiles
    exact List.length_take_le 20 _

/-- C6 (code-bug evidence): for the query `"fib"`, `fib.md` scores 10
(filename keyword match) and `util.py` scores 0, yet the returned order
puts `util.py` first — the final sort compares `priority`
(`b.priority - a.priority`), not the computed relevance score, which the
source assigns to a local and never reads (its own comment says
`Sort by relevance`). -/
theorem getRelevantFiles_ignores_relevance :
    relevanceScore (keywordsOf ("fib")) (rowOfRec recFib) = 10
    ∧ relevanceScore (keywordsOf ("fib")) (rowOfRec recUtil) = 0
    ∧ (getRelevantFilesStore ("fib") 100 demoStore).map FileInfo.filePath
        = [("/w/util.py"), ("/w/fib.md")] := by decide

end CodebaseHandler
